import Mathlib

/-!
Verification development for the bird-server protocol codec layer.

The definitions below are a shallow embedding of
`src/bird-protocol-macro/src/size.rs` (the size-range derivation engine)
and `src/bird-server/src/protocol.rs` (the hand-written codecs:
`BrigadierNodeRangeProperties`, `BrigadierNode`, `CompactLongsWriter`,
`CompactLongsReader`, `ChunkDataHeightMap`).

Bytes are modelled as natural numbers below 256, cursors as lists of
bytes; a fallible read returns `Option (value, remaining bytes)`.
Machine integers are `Nat`/`Int` with explicit clamping where the source
saturates. Helpers of the `bird_protocol` crate that are not part of the
repository sources (the `__private` saturating array sums, the primitive
VarInt / fixed-width integer / string codecs, the NBT tree reader) are
modelled from the specification; each such definition says so in its
doc comment.
-/

/-! ## Size-range derivation engine (`bird-protocol-macro/src/size.rs`) -/

/-- The largest u32 value: size bounds are u32 and all their additions saturate at this. -/
def U32MAX : Nat := 4294967295

/-- Modelled from the spec: saturating u32 addition ("All addition saturates — it never
overflows"); the implementation `bird_protocol::__private::add_u32_without_overflow_array`
is outside the repository sources. -/
def add_u32_without_overflow (a b : Nat) : Nat := min U32MAX (a + b)

/-- Modelled from the spec: the saturating sum of an array of u32 values, as
`bird_protocol::__private::add_u32_without_overflow_array`. -/
def add_u32_without_overflow_array (l : List Nat) : Nat :=
  l.foldl add_u32_without_overflow 0

/-- Modelled from the spec: the minimum of a u32 array
(`bird_protocol::__private::min_u32_array`); the engine only applies it to the
non-empty list of variant minima. -/
def min_u32_array : List Nat → Nat
  | [] => U32MAX
  | x :: xs => xs.foldl min x

/-- Modelled from the spec: the maximum of a u32 array
(`bird_protocol::__private::max_u32_array`). -/
def max_u32_array : List Nat → Nat
  | [] => 0
  | x :: xs => xs.foldl max x

/-- A field as the size engine sees it: the SIZE range of its natural type `ty`, and
the SIZE range of its `#[bp(variant = ...)]` override when one is declared
(`FieldAttributes::variant`). Ranges are (start, end) pairs of u32 values. -/
structure FieldDesc where
  ty : Nat × Nat
  variant : Option (Nat × Nat)
deriving DecidableEq

/-- `fields_size` of size.rs: for each field take the override type when present, else
the natural type (`field_attributes.variant.unwrap_or_else(|| field.ty ...)`), and sum
the starts and the ends with the saturating array sum. -/
def fields_size (fields : List FieldDesc) : Nat × Nat :=
  (add_u32_without_overflow_array (fields.map fun f => (f.variant.getD f.ty).1),
   add_u32_without_overflow_array (fields.map fun f => (f.variant.getD f.ty).2))

/-- An enum variant as declared: the encoded sizes of its `ghost = [...]` byte literals
(each a fixed-size constant such as 1 for `0u8` or 4 for `0f32`), and its declared
fields. `impl_derive` below receives the ghost list but, like size.rs, never reads it. -/
structure VariantDesc where
  ghost : List Nat
  fields : List FieldDesc
deriving DecidableEq

/-- The three shapes of `syn::Data` that `impl_derive` matches on. The enum key is
`object_attributes.key_variant.or(object_attributes.key_ty)`, already resolved to its
SIZE range when declared. -/
inductive DeriveData where
  | structData (fields : List FieldDesc)
  | enumData (key : Option (Nat × Nat)) (variants : List VariantDesc)
  | unionData (fields : List FieldDesc)
deriving DecidableEq

/-- `impl_derive` of size.rs: the generated `ProtocolSize::SIZE` range, or the
`syn::Error` message. A struct's range is `fields_size`; an enum's is the key's bound
plus the min/max over the variants' `fields_size` results; a union is rejected. -/
def impl_derive : DeriveData → Except String (Nat × Nat)
  | .structData fields => .ok (fields_size fields)
  | .enumData key variants =>
    match key with
    | some key_ty =>
      .ok (add_u32_without_overflow_array
             [key_ty.1, min_u32_array (variants.map fun v => (fields_size v.fields).1)],
           add_u32_without_overflow_array
             [key_ty.2, max_u32_array (variants.map fun v => (fields_size v.fields).2)])
    | none => .error ("You must set ty or variant for key of your enum")
  | .unionData _ => .error ("Union type is not supported")

/-- Modelled from the spec (section 4.3, item 3): the enum size derivation as the spec
describes it, with each variant's ghost-byte sizes folded into that variant's minimum
and maximum as constant additions, in addition to the variant's field bounds. Stated
for comparison with `impl_derive`, which is the embedding of the source. -/
def ghost_folded_enum_size (key_ty : Nat × Nat) (variants : List VariantDesc) : Nat × Nat :=
  (add_u32_without_overflow_array
     [key_ty.1, min_u32_array (variants.map fun v =>
        add_u32_without_overflow (fields_size v.fields).1 (add_u32_without_overflow_array v.ghost))],
   add_u32_without_overflow_array
     [key_ty.2, max_u32_array (variants.map fun v =>
        add_u32_without_overflow (fields_size v.fields).2 (add_u32_without_overflow_array v.ghost))])

/-- The `GameEventPS2C` enum of protocol.rs as the size engine sees it: `u8` key
(SIZE 1..1); the variants `NoRespawnBlockAvailable`, `EndRaining`, `BeginRaining`,
`ArrowHitPlayer`, `PufferfishSting`, `ElderGuardianMobAppearance` declare a begin-ghost
`0f32` (4 encoded bytes) and no fields; the remaining variants carry one 4-byte field
(`f32`, or an `f32`-keyed field-less enum such as `GameEventGameMode`). -/
def gameEventPS2CVariants : List VariantDesc :=
  [⟨[4], []⟩,                 -- NoRespawnBlockAvailable
   ⟨[4], []⟩,                 -- EndRaining
   ⟨[4], []⟩,                 -- BeginRaining
   ⟨[], [⟨(4, 4), none⟩]⟩,    -- ChangeGameMode(GameEventGameMode)
   ⟨[], [⟨(4, 4), none⟩]⟩,    -- WinGame(GameEventWinGame)
   ⟨[], [⟨(4, 4), none⟩]⟩,    -- DemoEvent(GameEventDemo)
   ⟨[4], []⟩,                 -- ArrowHitPlayer
   ⟨[], [⟨(4, 4), none⟩]⟩,    -- RainLevelChange(f32)
   ⟨[], [⟨(4, 4), none⟩]⟩,    -- ThunderLevelChange(f32)
   ⟨[4], []⟩,                 -- PufferfishSting
   ⟨[4], []⟩,                 -- ElderGuardianMobAppearance
   ⟨[], [⟨(4, 4), none⟩]⟩]    -- EnableRespawnScreen(GameEventRespawnScreen)

/-- A sample struct field list used for concrete evaluations of the size engine. -/
def sampleFields : List FieldDesc := [⟨(2, 3), some (1, 4)⟩]

/-- A sample enum key bound used for concrete evaluations of the size engine. -/
def sampleKey : Nat × Nat := (1, 5)

/-- A sample variant list used for concrete evaluations of the size engine. -/
def sampleVariants : List VariantDesc := [⟨[], []⟩, ⟨[2], [⟨(4, 4), none⟩]⟩]

/-! ## Primitive codecs (modelled from the spec)

The primitive codecs live in the `bird_protocol` crate, outside the repository
sources; the spec pins them down ("standard 7-bits-per-byte,
continuation-bit-terminated, little-endian-group encoding" for VarInt,
fixed-width big-endian integers, length-prefixed strings/arrays). -/

/-- Modelled from the spec: VarInt group emission; five groups cover every u32,
the source loops until the value fits in seven bits. -/
def varIntWriteAux : Nat → Nat → List Nat
  | 0, _ => []
  | fuel + 1, v => if v < 128 then [v] else (128 + v % 128) :: varIntWriteAux fuel (v / 128)

/-- Modelled from the spec: VarInt encoding of a u32 value. -/
def varIntWrite (v : Nat) : List Nat := varIntWriteAux 5 v

/-- Modelled from the spec: VarInt decoding, at most five groups for 32-bit values. -/
def varIntReadAux : Nat → Nat → Nat → List Nat → Option (Nat × List Nat)
  | 0, _, _, _ => none
  | _ + 1, _, _, [] => none
  | fuel + 1, shift, acc, b :: rest =>
    if b < 128 then some (acc + b * 2 ^ shift, rest)
    else varIntReadAux fuel (shift + 7) (acc + b % 128 * 2 ^ shift) rest

/-- Modelled from the spec: VarInt decoding of a u32 value from a byte cursor. -/
def varIntRead (l : List Nat) : Option (Nat × List Nat) := varIntReadAux 5 0 0 l

/-- The u32 bit pattern of an i32 value (two's complement). -/
def u32ofI32 (v : Int) : Nat := (v % 4294967296).toNat

/-- The i32 value of a u32 bit pattern (two's complement). -/
def i32ofU32 (u : Nat) : Int := if u < 2147483648 then (u : Int) else (u : Int) - 4294967296

/-- Modelled from the spec: fixed-width i32, four big-endian bytes. -/
def i32Write (v : Int) : List Nat :=
  [u32ofI32 v / 16777216 % 256, u32ofI32 v / 65536 % 256, u32ofI32 v / 256 % 256, u32ofI32 v % 256]

/-- Modelled from the spec: fixed-width i32 read, four big-endian bytes. -/
def i32Read : List Nat → Option (Int × List Nat)
  | b0 :: b1 :: b2 :: b3 :: rest => some (i32ofU32 (((b0 * 256 + b1) * 256 + b2) * 256 + b3), rest)
  | _ => none

/-- VarInt codec applied to an i32 value through its u32 bit pattern. -/
def varIntWriteI32 (v : Int) : List Nat := varIntWrite (u32ofI32 v)

/-- VarInt decode of an i32 value through its u32 bit pattern. -/
def varIntReadI32 (l : List Nat) : Option (Int × List Nat) :=
  (varIntRead l).map fun p => (i32ofU32 p.1, p.2)

/-- Take exactly `n` bytes from a cursor. -/
def listTakeN : Nat → List Nat → Option (List Nat × List Nat)
  | 0, l => some ([], l)
  | _ + 1, [] => none
  | n + 1, b :: r => (listTakeN n r).map fun p => (b :: p.1, p.2)

/-- Modelled from the spec: the borrowed string codec, a VarInt byte length followed
by the UTF-8 bytes (kept opaque as a byte list). -/
def strWrite (s : List Nat) : List Nat := varIntWrite s.length ++ s

/-- Modelled from the spec: borrowed string read; a negative length fails. -/
def strRead (l : List Nat) : Option (List Nat × List Nat) :=
  (varIntReadI32 l).bind fun p => if p.1 < 0 then none else listTakeN p.1.toNat p.2

/-- Modelled from the spec: `LengthProvidedArray<i32, VarInt, i32, i32>::write_variant`,
a VarInt element count followed by the elements as fixed-width i32. -/
def lengthProvidedArrayI32Write (xs : List Int) : List Nat :=
  varIntWrite xs.length ++ (xs.map i32Write).flatten

/-- Read `n` fixed-width i32 elements. -/
def listReadNI32 : Nat → List Nat → Option (List Int × List Nat)
  | 0, l => some ([], l)
  | n + 1, l => (i32Read l).bind fun p => (listReadNI32 n p.2).map fun q => (p.1 :: q.1, q.2)

/-- Modelled from the spec: `LengthProvidedArray<i32, VarInt, i32, i32>::read_variant`. -/
def lengthProvidedArrayI32Read (l : List Nat) : Option (List Int × List Nat) :=
  (varIntReadI32 l).bind fun p => if p.1 < 0 then none else listReadNI32 p.1.toNat p.2

/-- A one-byte element codec standing in for a concrete `T : ProtocolWritable`
instantiation of the generic range-properties codec. -/
def byteWrite (n : Nat) : List Nat := [n]

/-- The matching one-byte element read. -/
def byteRead : List Nat → Option (Nat × List Nat)
  | [] => none
  | b :: r => some (b, r)

/-! ## `BrigadierNodeRangeProperties<T>` (protocol.rs lines 630-670) -/

/-- `BrigadierNodeRangeProperties<T>`: an optional minimum and an optional maximum. -/
structure BrigadierNodeRangeProperties (T : Type) where
  min : Option T
  max : Option T
deriving DecidableEq

/-- `BrigadierNodeRangeProperties::write`: the flags byte is
`(min.is_some() as u8 * 1) | (max.is_some() as u8 * 2)`, then the present `min`,
then the present `max`, each through the element codec `wT`. -/
def BrigadierNodeRangeProperties.write {T : Type} (wT : T → List Nat)
    (v : BrigadierNodeRangeProperties T) : List Nat :=
  ((if v.min.isSome then 1 else 0) ||| (if v.max.isSome then 2 else 0)) ::
    ((match v.min with | some x => wT x | none => []) ++
     (match v.max with | some x => wT x | none => []))

/-- `BrigadierNodeRangeProperties::read`: one flags byte; `min` is read when
`flags & 0x2 != 0` and `max` when `flags & 0x1 != 0`, exactly as in the source. -/
def BrigadierNodeRangeProperties.read {T : Type} (rT : List Nat → Option (T × List Nat))
    (l : List Nat) : Option (BrigadierNodeRangeProperties T × List Nat) :=
  match l with
  | [] => none
  | flags :: rest => do
    let (mn, r1) ←
      if flags &&& 2 ≠ 0 then (rT rest).map (fun p => (some p.1, p.2)) else some (none, rest)
    let (mx, r2) ←
      if flags &&& 1 ≠ 0 then (rT r1).map (fun p => (some p.1, p.2)) else some (none, r1)
    some (⟨mn, mx⟩, r2)

/-! ## `BrigadierNode` (protocol.rs lines 750-826)

The node is generic here over the parser payload `P` with its codec passed in,
because the `BrigadierNodeParser` codec is produced by the derive engine of the
macro crate, whose read/write half is not among the repository sources. -/

/-- `BrigadierNode`: fields as in the source; the borrowed `&str` name and the
`Identifier` suggestions type are kept as their UTF-8 byte lists. -/
structure BrigadierNode (P : Type) where
  executable : Bool
  children : List Int
  redirect_node : Option Int
  name : Option (List Nat)
  parser : Option P
  suggestions_type : Option (List Nat)
deriving DecidableEq

/-- The `BrigadierNodeFlags` bitfield as written: `node_type` in bits 0-1,
`executable` bit 2, `redirect` bit 3, `suggestions_type` bit 4. -/
def brigadierNodeFlags (node_type : Nat) (executable redirect suggestions : Bool) : Nat :=
  node_type ||| (if executable then 4 else 0) ||| (if redirect then 8 else 0) |||
    (if suggestions then 16 else 0)

/-- `BrigadierNode::write`: the flags byte (node type derived from `name`/`parser`
presence), the children array, then the present `redirect_node` (as fixed-width i32,
as `i32::write` in the source), the present `parser`, the present `suggestions_type`.
The source never writes `name`, and this embedding faithfully does not either. -/
def BrigadierNode.write {P : Type} (pW : P → List Nat) (v : BrigadierNode P) : List Nat :=
  brigadierNodeFlags
      (match v.name with
       | some _ => match v.parser with | some _ => 2 | none => 1
       | none => 0)
      v.executable v.redirect_node.isSome v.suggestions_type.isSome ::
    (lengthProvidedArrayI32Write v.children ++
     (match v.redirect_node with | some x => i32Write x | none => []) ++
     (match v.parser with | some p => pW p | none => []) ++
     (match v.suggestions_type with | some s => strWrite s | none => []))

/-- `BrigadierNode::read`: flags byte, children array, then `redirect_node` as a
VarInt when the redirect flag is set (as `VarInt::read_variant` in the source),
then name/parser according to the node type (root: neither; literal: name only;
otherwise: name and parser), then the suggestions identifier when flagged. -/
def BrigadierNode.read {P : Type} (pR : List Nat → Option (P × List Nat))
    (l : List Nat) : Option (BrigadierNode P × List Nat) :=
  match l with
  | [] => none
  | flags :: r0 => do
    let (children, r1) ← lengthProvidedArrayI32Read r0
    let (redirect_node, r2) ←
      if flags &&& 8 ≠ 0 then (varIntReadI32 r1).map (fun p => (some p.1, p.2))
      else some (none, r1)
    let (name, parser, r3) ←
      if flags &&& 3 = 0 then some (none, none, r2)
      else if flags &&& 3 = 1 then (strRead r2).map (fun p => (some p.1, none, p.2))
      else do
        let (s, ra) ← strRead r2
        let (p, rb) ← pR ra
        some (some s, some p, rb)
    let (suggestions_type, r4) ←
      if flags &&& 16 ≠ 0 then (strRead r3).map (fun p => (some p.1, p.2))
      else some (none, r3)
    some (⟨flags &&& 4 ≠ 0, children, redirect_node, name, parser, suggestions_type⟩, r4)

/-- A lawful one-byte stand-in parser codec for concrete evaluations. -/
def unitParserWrite : Unit → List Nat := fun _ => [0]

/-- The matching stand-in parser read. -/
def unitParserRead : List Nat → Option (Unit × List Nat)
  | [] => none
  | _ :: r => some ((), r)

/-! ## `CompactLongsWriter<BITS>` (protocol.rs lines 1214-1257) -/

/-- `ELEMENTS_IN_LONG = 64 / BITS`. -/
def ELEMENTS_IN_LONG (BITS : Nat) : Nat := 64 / BITS

/-- `GAP = 64 % BITS`. -/
def GAP (BITS : Nat) : Nat := 64 % BITS

/-- `CompactLongsWriter`: the finished words, the in-progress accumulator, and the
number of elements already packed into it. -/
structure CompactLongsWriter where
  vec : List Nat
  current : Nat
  current_index : Nat
deriving DecidableEq

/-- `CompactLongsWriter::new`. -/
def CompactLongsWriter.new : CompactLongsWriter := ⟨[], 0, 0⟩

/-- `CompactLongsWriter::push`: flush the accumulator when it already holds
`ELEMENTS_IN_LONG` elements, then or the value in at
`current_index * BITS + GAP` and bump the index. -/
def CompactLongsWriter.push (BITS : Nat) (s : CompactLongsWriter) (number : Nat) :
    CompactLongsWriter :=
  let s := if s.current_index = ELEMENTS_IN_LONG BITS then
    (⟨s.vec ++ [s.current], 0, 0⟩ : CompactLongsWriter) else s
  ⟨s.vec, s.current ||| number <<< (s.current_index * BITS + GAP BITS), s.current_index + 1⟩

/-- `CompactLongsWriter::elements`. -/
def CompactLongsWriter.elements (BITS : Nat) (s : CompactLongsWriter) : Nat :=
  s.current_index + s.vec.length * ELEMENTS_IN_LONG BITS

/-- `CompactLongsWriter::finish`: append the partial accumulator exactly when it is
non-empty. -/
def CompactLongsWriter.finish (s : CompactLongsWriter) : List Nat :=
  if s.current_index ≠ 0 then s.vec ++ [s.current] else s.vec

/-- Push a whole sequence, first to last. -/
def writerPushList (BITS : Nat) (s : CompactLongsWriter) (l : List Nat) : CompactLongsWriter :=
  l.foldl (CompactLongsWriter.push BITS) s

/-! ## `CompactLongsReader<I, BITS, COUNT>` (protocol.rs lines 1259-1302)

The Rust reader is generic over an iterator `I`; here the source is any type `S`
with a step function `S → Option (Nat × S)` playing `Iterator::next`. -/

/-- `CompactLongsReader`: the remaining source, the current word (already shifted
past the gap), the one-word lookahead, and the index within the current word. -/
structure CompactLongsReader (S : Type) where
  iterator : S
  current_long : Nat
  next_long : Option Nat
  current_index : Nat
deriving DecidableEq

/-- `Iterator::next` for a list source. -/
def listStep : List Nat → Option (Nat × List Nat)
  | [] => none
  | w :: ws => some (w, ws)

/-- `CompactLongsReader::new`: take the first word (shifted right by `64 % BITS`),
pre-fetch the second as lookahead; fail when the source is empty. -/
def CompactLongsReader.new {S : Type} (step : S → Option (Nat × S)) (BITS : Nat)
    (src : S) : Option (CompactLongsReader S) :=
  match step src with
  | none => none
  | some (w, s1) =>
    match step s1 with
    | none => some ⟨s1, w >>> (64 % BITS), none, 0⟩
    | some (w2, s2) => some ⟨s2, w >>> (64 % BITS), some w2, 0⟩

/-- The stopping index of `CompactLongsReader::next`:
`COUNT % (64 / BITS)`, or `64 / BITS` when that remainder is zero. -/
def stopIndex (BITS COUNT : Nat) : Nat :=
  if COUNT % (64 / BITS) = 0 then 64 / BITS else COUNT % (64 / BITS)

/-- The yielding tail of `CompactLongsReader::next`: mask out `BITS` low bits,
shift them away, bump the index. -/
def readerYield {S : Type} (BITS : Nat) (t : CompactLongsReader S) :
    Option (Option Nat × CompactLongsReader S) :=
  some (some (t.current_long &&& ((1 <<< BITS) - 1)),
        ⟨t.iterator, t.current_long >>> BITS, t.next_long, t.current_index + 1⟩)

/-- `CompactLongsReader::next`. A `some (some v, s)` result is a yielded element,
`some (none, s)` is the iterator's `None` (the state is unchanged, as in the
source), and the outer `none` marks the `unwrap_unchecked` on an absent lookahead —
undefined behaviour in the source, reached only when the word supply runs short. -/
def CompactLongsReader.next {S : Type} (step : S → Option (Nat × S)) (BITS COUNT : Nat)
    (s : CompactLongsReader S) : Option (Option Nat × CompactLongsReader S) :=
  if s.next_long = none ∧ s.current_index = stopIndex BITS COUNT then
    some (none, s)
  else if s.current_index = 64 / BITS then
    match s.next_long with
    | none => none
    | some w =>
      match step s.iterator with
      | some (w2, it2) => readerYield BITS ⟨it2, w >>> (64 % BITS), some w2, 0⟩
      | none => readerYield BITS ⟨s.iterator, w >>> (64 % BITS), none, 0⟩
  else readerYield BITS s

/-- Run `n` calls of `CompactLongsReader::next`, requiring every call to yield an
element: `some (elements, final state)` when all `n` calls yield, `none` when a
call returns the iterator's `None` or hits the unchecked unwrap. -/
def readerTakeYields {S : Type} (step : S → Option (Nat × S)) (BITS COUNT : Nat) :
    Nat → CompactLongsReader S → Option (List Nat × CompactLongsReader S)
  | 0, s => some ([], s)
  | n + 1, s =>
    match CompactLongsReader.next step BITS COUNT s with
    | some (some v, s1) =>
      match readerTakeYields step BITS COUNT n s1 with
      | some (vs, s2) => some (v :: vs, s2)
      | none => none
    | _ => none

/-- The words still unread by a list-sourced reader, lookahead first. -/
def readerPendingState (q : List Nat) (c i : Nat) : CompactLongsReader (List Nat) :=
  match q with
  | [] => ⟨[], c, none, i⟩
  | w :: q2 => ⟨q2, c, some w, i⟩

/-- How many elements remain to be yielded from index `i` of the current word when
the words of `q` are still unread: every unread word carries `64 / BITS` elements
except the last, which carries `stopIndex`. -/
def readerPendingCount (BITS COUNT : Nat) (q : List Nat) (i : Nat) : Nat :=
  match q with
  | [] => stopIndex BITS COUNT - i
  | _ :: q2 => (64 / BITS - i) + (64 / BITS) * q2.length + stopIndex BITS COUNT

/-- The 19-element test sequence of the source: `0b1, 0b111, 0b11111, 0b1111111,
0b111111111, 0b0, 0b0` three times, the last repetition omitting the two zeros. -/
def compactLongsTestSequence : List Nat :=
  [1, 7, 31, 127, 511, 0, 0, 1, 7, 31, 127, 511, 0, 0, 1, 7, 31, 127, 511]

/-- The word `0b111111111_001111111_000011111_000000111_000000001_0` of the source's
tests. -/
def compactLongsTestWord : Nat := 0b1111111110011111110000111110000001110000000010

/-! ## `ChunkDataHeightMap` (protocol.rs lines 1304-1389) -/

/-- The entry name the height map requires inside the embedded NBT compound. -/
def CHUNK_DATA_HEIGHT_MAP_KEY : String := "MOTION_BLOCKING"

/-- Modelled from the spec: the embedded general tree format (NBT). Only the
constructor shapes matter here; array payloads are kept as their raw byte lists,
exactly as the source's `NbtElement::LongArray(&[u8])` borrows raw bytes. -/
inductive NbtElement where
  | byteTag (v : Int)
  | shortTag (v : Int)
  | intTag (v : Int)
  | longTag (v : Int)
  | floatTag
  | doubleTag
  | byteArray (data : List Nat)
  | stringTag (s : List Nat)
  | listTag (n : Nat)
  | compoundTag (n : Nat)
  | intArray (data : List Nat)
  | longArray (data : List Nat)
deriving DecidableEq

/-- `ChunkDataHeightMapInner`: a borrowed view, either raw bytes or decoded longs. -/
inductive ChunkDataHeightMapInner where
  | raw (bytes : List Nat)
  | longs (words : List Nat)
deriving DecidableEq

/-- `ChunkDataHeightMap`, the transparent wrapper. -/
structure ChunkDataHeightMap where
  inner : ChunkDataHeightMapInner
deriving DecidableEq

/-- Modelled from the spec: fixed-width u64 read, eight big-endian bytes consumed
from the cursor, failing on a truncated buffer. -/
def u64Read : List Nat → Option (Nat × List Nat)
  | b0 :: b1 :: b2 :: b3 :: b4 :: b5 :: b6 :: b7 :: rest =>
    some (((((((b0 * 256 + b1) * 256 + b2) * 256 + b3) * 256 + b4) * 256 + b5) * 256 + b6)
            * 256 + b7, rest)
  | _ => none

/-- The `Iterator` impl of `ChunkDataHeightMapInner`: a raw view reads one u64 off
its byte slice, a longs view pops its first word. -/
def chunkDataHeightMapInnerStep :
    ChunkDataHeightMapInner → Option (Nat × ChunkDataHeightMapInner)
  | .raw bytes => (u64Read bytes).map fun p => (p.1, .raw p.2)
  | .longs words =>
    match words with
    | [] => none
    | w :: rest => some (w, .longs rest)

/-- `ChunkDataHeightMap::read`, modelled from the spec at the level of the named-entry
lookup: the source enters the NBT compound and asks `read_named_nbt_tag` for
`MOTION_BLOCKING`; here the compound is the association list the cursor holds, and
the lookup result drives the same match as the source: a long-array entry of exactly
`37 * 8` raw bytes succeeds, anything else is the corresponding error. -/
def ChunkDataHeightMap.read (compound : List (String × NbtElement)) :
    Except String ChunkDataHeightMap :=
  match compound.lookup CHUNK_DATA_HEIGHT_MAP_KEY with
  | some (.longArray data) =>
    if data.length = 37 * 8 then .ok ⟨.raw data⟩
    else .error ("MOTION_BLOCKING must be NbtLongArray with exactly 37 length")
  | _ => .error ("MOTION_BLOCKING is not NbtLongArray or not present")

/-! ## Theorems -/

/-- Claim C8: for every union-shaped input, the size derivation fails with the
descriptive error "Union type is not supported" and generates no SIZE range. -/
theorem impl_derive_union_rejected (fields : List FieldDesc) :
    impl_derive (.unionData fields) = .error ("Union type is not supported") := rfl

/-- Claim C8 witness: the rejection at a concrete union input. -/
theorem impl_derive_union_rejected_witness :
    impl_derive (.unionData []) = .error ("Union type is not supported") :=
  impl_derive_union_rejected []

/-- Claim C1: the round-trip of `BrigadierNodeRangeProperties` fails. `write` sets
flag bit 0x1 when `min` is present, but `read` consults bit 0x2 to decide whether to
read `min` (and bit 0x1 for `max`), so the value `{ min = some 5, max = none }`
(with a one-byte element codec) is written as `[1, 5]` and read back as
`{ min = none, max = some 5 }`, a different value. -/
theorem BrigadierNodeRangeProperties_read_write_mismatch :
    BrigadierNodeRangeProperties.write byteWrite
        (⟨some 5, none⟩ : BrigadierNodeRangeProperties Nat) = [1, 5]
    ∧ BrigadierNodeRangeProperties.read byteRead
        (BrigadierNodeRangeProperties.write byteWrite
          (⟨some 5, none⟩ : BrigadierNodeRangeProperties Nat))
        = some (⟨none, some 5⟩, [])
    ∧ (⟨none, some 5⟩ : BrigadierNodeRangeProperties Nat) ≠ ⟨some 5, none⟩ := by
  refine ⟨rfl, rfl, ?_⟩
  decide

/-- Claim C2: the round-trip of `BrigadierNode` fails. `write` never emits the
`name` field, so the valid literal node `{ executable = false, children = [],
redirect_node = none, name = some "", parser = none, suggestions_type = none }`
is written as the two bytes `[0x01, 0x00]` (flags with node type LITERAL, then the
empty children array) and `read`, which does expect a name string for a literal
node, fails on the truncated buffer instead of reproducing the node. -/
theorem BrigadierNode_write_read_mismatch :
    BrigadierNode.write unitParserWrite
        (⟨false, [], none, some [], none, none⟩ : BrigadierNode Unit) = [1, 0]
    ∧ BrigadierNode.read unitParserRead
        (BrigadierNode.write unitParserWrite
          (⟨false, [], none, some [], none, none⟩ : BrigadierNode Unit)) = none := by
  exact ⟨rfl, rfl⟩

/-- Claim C3: the size engine does not fold ghost bytes into the owning variant's
bounds. On the `GameEventPS2C` description (u8 key; six variants declare a 4-byte
`0f32` begin-ghost and no fields) `impl_derive` yields the range 1..5, treating the
ghost-only variants as zero-byte payloads, while the spec's ghost-folding rule
(embodied by `ghost_folded_enum_size`) yields 5..5. -/
theorem impl_derive_ignores_ghost_bytes :
    impl_derive (.enumData (some (1, 1)) gameEventPS2CVariants) = .ok (1, 5)
    ∧ ghost_folded_enum_size (1, 1) gameEventPS2CVariants = (5, 5) := by
  exact ⟨rfl, rfl⟩

/-- Claim C5: the concrete bit-packed scenario. Pushing the 19-element sequence into
a `CompactLongsWriter` with BITS = 9 and finishing yields three words each equal to
`0b111111111_001111111_000011111_000000111_000000001_0`; a `CompactLongsReader` with
BITS = 9, COUNT = 19 over those words yields exactly the sequence back and the next
call returns `None`. -/
theorem compact_longs_concrete_scenario :
    CompactLongsWriter.finish (writerPushList 9 CompactLongsWriter.new compactLongsTestSequence)
        = [compactLongsTestWord, compactLongsTestWord, compactLongsTestWord]
    ∧ ((CompactLongsReader.new listStep 9
          [compactLongsTestWord, compactLongsTestWord, compactLongsTestWord]).bind
        (readerTakeYields listStep 9 19 19)).map Prod.fst = some compactLongsTestSequence
    ∧ (((CompactLongsReader.new listStep 9
          [compactLongsTestWord, compactLongsTestWord, compactLongsTestWord]).bind
        (readerTakeYields listStep 9 19 19)).bind
        fun p => (CompactLongsReader.next listStep 9 19 p.2).map Prod.fst) = some none := by
  refine ⟨rfl, rfl, rfl⟩

/-- Claim C6, counterexample: the reader does not stop after COUNT elements for every
accepted source. With BITS = 9 and COUNT = 1 over the two-word source `[0, 0]`,
`new` succeeds and the first two calls of `next` both yield an element (the claim
requires the second call to return `None` after the single counted element). -/
theorem compactLongsReader_extra_words_counterexample :
    ((CompactLongsReader.new listStep 9 [0, 0]).bind
        (readerTakeYields listStep 9 1 2)).map Prod.fst = some [0, 0] := rfl

/-- Claim C7: `ChunkDataHeightMap::read` succeeds exactly when the embedded compound
has a `MOTION_BLOCKING` entry that is a long-array whose raw byte length is `37 * 8`,
and then the returned height map views exactly those bytes. -/
theorem chunkDataHeightMap_read_characterization (compound : List (String × NbtElement))
    (hm : ChunkDataHeightMap) :
    ChunkDataHeightMap.read compound = .ok hm ↔
      ∃ data, compound.lookup CHUNK_DATA_HEIGHT_MAP_KEY = some (.longArray data)
        ∧ data.length = 37 * 8 ∧ hm = ⟨.raw data⟩ := by
  cases h : compound.lookup CHUNK_DATA_HEIGHT_MAP_KEY with
  | none => simp [ChunkDataHeightMap.read, h]
  | some e =>
    cases e <;> simp [ChunkDataHeightMap.read, h]
    rename_i data
    by_cases hlen : data.length = 37 * 8
    · simp [hlen]
      exact eq_comm
    · simp [hlen]

/-- The saturating fold equals the clamped sum, from any start value not above the cap. -/
theorem foldl_add_u32_eq (l : List Nat) : ∀ c, c ≤ U32MAX →
    l.foldl add_u32_without_overflow c = min U32MAX (c + l.sum) := by
  induction l with
  | nil =>
    intro c hc
    simp [min_eq_right hc]
  | cons x xs ih =>
    intro c hc
    rw [List.foldl_cons, ih (add_u32_without_overflow c x) (Nat.min_le_left _ _)]
    simp only [add_u32_without_overflow, List.sum_cons]
    omega

/-- The saturating array sum is the clamped sum. -/
theorem add_u32_array_eq (l : List Nat) :
    add_u32_without_overflow_array l = min U32MAX l.sum := by
  simpa using foldl_add_u32_eq l 0 (Nat.zero_le _)

/-- A minimum fold lands in the candidate list. -/
theorem foldl_min_mem (xs : List Nat) : ∀ x, xs.foldl min x ∈ x :: xs := by
  induction xs with
  | nil => intro x; simp
  | cons z zs ih =>
    intro x
    rw [List.foldl_cons]
    have hmin : min x z = x ∨ min x z = z := by omega
    rcases List.mem_cons.mp (ih (min x z)) with h | h
    · rcases hmin with hx | hz
      · rw [h, hx]; exact List.mem_cons_self _ _
      · rw [h, hz]; exact List.mem_cons.mpr (Or.inr (List.mem_cons_self _ _))
    · exact List.mem_cons.mpr (Or.inr (List.mem_cons.mpr (Or.inr h)))

/-- A minimum fold is below every candidate. -/
theorem foldl_min_le (xs : List Nat) : ∀ x y, y ∈ x :: xs → xs.foldl min x ≤ y := by
  induction xs with
  | nil =>
    intro x y hy
    simp at hy
    subst hy
    simp
  | cons z zs ih =>
    intro x y hy
    rw [List.foldl_cons]
    have hself := ih (min x z) (min x z) (List.mem_cons_self _ _)
    rcases List.mem_cons.mp hy with hxy | h
    · subst hxy
      omega
    · rcases List.mem_cons.mp h with hzy | h
      · subst hzy
        omega
      · exact ih (min x z) y (List.mem_cons.mpr (Or.inr h))

/-- A maximum fold lands in the candidate list. -/
theorem foldl_max_mem (xs : List Nat) : ∀ x, xs.foldl max x ∈ x :: xs := by
  induction xs with
  | nil => intro x; simp
  | cons z zs ih =>
    intro x
    rw [List.foldl_cons]
    have hmax : max x z = x ∨ max x z = z := by omega
    rcases List.mem_cons.mp (ih (max x z)) with h | h
    · rcases hmax with hx | hz
      · rw [h, hx]; exact List.mem_cons_self _ _
      · rw [h, hz]; exact List.mem_cons.mpr (Or.inr (List.mem_cons_self _ _))
    · exact List.mem_cons.mpr (Or.inr (List.mem_cons.mpr (Or.inr h)))

/-- A maximum fold is above every candidate. -/
theorem le_foldl_max (xs : List Nat) : ∀ x y, y ∈ x :: xs → y ≤ xs.foldl max x := by
  induction xs with
  | nil =>
    intro x y hy
    simp at hy
    subst hy
    simp
  | cons z zs ih =>
    intro x y hy
    rw [List.foldl_cons]
    have hself := ih (max x z) (max x z) (List.mem_cons_self _ _)
    rcases List.mem_cons.mp hy with hxy | h
    · subst hxy
      omega
    · rcases List.mem_cons.mp h with hzy | h
      · subst hzy
        omega
      · exact ih (max x z) y (List.mem_cons.mpr (Or.inr h))

/-- Claim C4: the derived SIZE formulas. For a struct, start and end are the
saturating (clamped) sums of the fields' effective bound starts and ends, a field's
effective bound being its override's when declared and its natural type's otherwise.
For a non-empty enum, start is the key bound's start plus (saturating) the minimum
over the variants of their clamped field-bound sums, and end is the key bound's end
plus the maximum over the variants; the `m`/`M` below are exactly that minimum and
maximum. -/
theorem impl_derive_size_formulas (fields : List FieldDesc) (key_ty : Nat × Nat)
    (variants : List VariantDesc) (hv : variants ≠ []) :
    impl_derive (.structData fields)
      = .ok (min U32MAX (fields.map fun f => (f.variant.getD f.ty).1).sum,
             min U32MAX (fields.map fun f => (f.variant.getD f.ty).2).sum)
    ∧ ∃ m M,
        m ∈ variants.map (fun v => min U32MAX (v.fields.map fun f => (f.variant.getD f.ty).1).sum)
        ∧ (∀ x ∈ variants.map
            (fun v => min U32MAX (v.fields.map fun f => (f.variant.getD f.ty).1).sum), m ≤ x)
        ∧ M ∈ variants.map (fun v => min U32MAX (v.fields.map fun f => (f.variant.getD f.ty).2).sum)
        ∧ (∀ x ∈ variants.map
            (fun v => min U32MAX (v.fields.map fun f => (f.variant.getD f.ty).2).sum), x ≤ M)
        ∧ impl_derive (.enumData (some key_ty) variants)
            = .ok (min U32MAX (key_ty.1 + m), min U32MAX (key_ty.2 + M)) := by
  have hfun1 : (fun v : VariantDesc => (fields_size v.fields).1)
      = fun v : VariantDesc => min U32MAX (v.fields.map fun f => (f.variant.getD f.ty).1).sum := by
    funext v
    simp [fields_size, add_u32_array_eq]
  have hfun2 : (fun v : VariantDesc => (fields_size v.fields).2)
      = fun v : VariantDesc => min U32MAX (v.fields.map fun f => (f.variant.getD f.ty).2).sum := by
    funext v
    simp [fields_size, add_u32_array_eq]
  constructor
  · simp [impl_derive, fields_size, add_u32_array_eq]
  · obtain ⟨v0, vs, rfl⟩ : ∃ v0 vs, variants = v0 :: vs := by
      cases variants with
      | nil => exact absurd rfl hv
      | cons v0 vs => exact ⟨v0, vs, rfl⟩
    refine ⟨min_u32_array ((v0 :: vs).map
        (fun v => min U32MAX (v.fields.map fun f => (f.variant.getD f.ty).1).sum)),
      max_u32_array ((v0 :: vs).map
        (fun v => min U32MAX (v.fields.map fun f => (f.variant.getD f.ty).2).sum)),
      ?_, ?_, ?_, ?_, ?_⟩
    · rw [List.map_cons]
      exact foldl_min_mem _ _
    · intro x hx
      rw [List.map_cons] at hx ⊢
      exact foldl_min_le _ _ x hx
    · rw [List.map_cons]
      exact foldl_max_mem _ _
    · intro x hx
      rw [List.map_cons] at hx ⊢
      exact le_foldl_max _ _ x hx
    · simp only [impl_derive, hfun1, hfun2]
      have h2 : ∀ a b : Nat, add_u32_without_overflow_array [a, b] = min U32MAX (a + b) := by
        intro a b
        rw [add_u32_array_eq]
        simp
      rw [h2, h2]

/-- Claim C4 witness: the size formulas at a concrete struct (one overridden field)
and a concrete two-variant enum. -/
theorem impl_derive_size_formulas_witness :
    sampleVariants ≠ []
    ∧ (impl_derive (.structData sampleFields)
        = .ok (min U32MAX (sampleFields.map fun f => (f.variant.getD f.ty).1).sum,
               min U32MAX (sampleFields.map fun f => (f.variant.getD f.ty).2).sum)
      ∧ ∃ m M,
          m ∈ sampleVariants.map
            (fun v => min U32MAX (v.fields.map fun f => (f.variant.getD f.ty).1).sum)
          ∧ (∀ x ∈ sampleVariants.map
              (fun v => min U32MAX (v.fields.map fun f => (f.variant.getD f.ty).1).sum), m ≤ x)
          ∧ M ∈ sampleVariants.map
            (fun v => min U32MAX (v.fields.map fun f => (f.variant.getD f.ty).2).sum)
          ∧ (∀ x ∈ sampleVariants.map
              (fun v => min U32MAX (v.fields.map fun f => (f.variant.getD f.ty).2).sum), x ≤ M)
          ∧ impl_derive (.enumData (some sampleKey) sampleVariants)
              = .ok (min U32MAX (sampleKey.1 + m), min U32MAX (sampleKey.2 + M))) :=
  ⟨by decide, impl_derive_size_formulas sampleFields sampleKey sampleVariants (by decide)⟩

/-- Division helper: `(a + b * e + e - 1) / e = b + 1` when `1 ≤ a ≤ e`. -/
theorem div_ceil_step (a b e : Nat) (he : 1 ≤ e) (ha : 1 ≤ a) (hae : a ≤ e) :
    (a + b * e + e - 1) / e = b + 1 := by
  have h1 : a + b * e + e - 1 = e * b + (e * 1 + (a - 1)) := by
    have h2 : e * b = b * e := Nat.mul_comm e b
    omega
  rw [h1, Nat.mul_add_div (by omega), Nat.mul_add_div (by omega),
    Nat.div_eq_of_lt (by omega)]

/-- One push adds one element and leaves the accumulator index in `1..=ELEMENTS_IN_LONG`. -/
theorem writer_push_step (BITS : Nat) (hB : 1 ≤ ELEMENTS_IN_LONG BITS)
    (s : CompactLongsWriter) (x : Nat)
    (hs : (s.vec = [] ∧ s.current_index = 0)
      ∨ (1 ≤ s.current_index ∧ s.current_index ≤ ELEMENTS_IN_LONG BITS)) :
    CompactLongsWriter.elements BITS (CompactLongsWriter.push BITS s x)
        = CompactLongsWriter.elements BITS s + 1
    ∧ 1 ≤ (CompactLongsWriter.push BITS s x).current_index
    ∧ (CompactLongsWriter.push BITS s x).current_index ≤ ELEMENTS_IN_LONG BITS := by
  unfold CompactLongsWriter.push
  by_cases h : s.current_index = ELEMENTS_IN_LONG BITS
  · simp [h, CompactLongsWriter.elements, Nat.succ_mul]
    omega
  · simp [h, CompactLongsWriter.elements]
    rcases hs with ⟨hvec, hidx⟩ | ⟨h1, h2⟩
    · omega
    · omega

/-- Pushing a list adds its length to the element count and preserves the accumulator
invariant. -/
theorem writer_push_list_invariant (BITS : Nat) (hB : 1 ≤ ELEMENTS_IN_LONG BITS)
    (l : List Nat) : ∀ (s : CompactLongsWriter),
    (s.vec = [] ∧ s.current_index = 0)
      ∨ (1 ≤ s.current_index ∧ s.current_index ≤ ELEMENTS_IN_LONG BITS) →
    CompactLongsWriter.elements BITS (writerPushList BITS s l)
        = CompactLongsWriter.elements BITS s + l.length
    ∧ ((writerPushList BITS s l).vec = [] ∧ (writerPushList BITS s l).current_index = 0
       ∨ (1 ≤ (writerPushList BITS s l).current_index
          ∧ (writerPushList BITS s l).current_index ≤ ELEMENTS_IN_LONG BITS)) := by
  induction l with
  | nil =>
    intro s hs
    exact ⟨by simp [writerPushList], hs⟩
  | cons x xs ih =>
    intro s hs
    obtain ⟨he, hi1, hi2⟩ := writer_push_step BITS hB s x hs
    have hlist : writerPushList BITS s (x :: xs)
        = writerPushList BITS (CompactLongsWriter.push BITS s x) xs := by
      simp [writerPushList]
    obtain ⟨ihe, ihinv⟩ := ih (CompactLongsWriter.push BITS s x) (Or.inr ⟨hi1, hi2⟩)
    rw [hlist]
    constructor
    · rw [ihe, he]
      simp
      omega
    · exact ihinv

/-- Claim C9: after pushing `n` values each fitting in `BITS` bits, `elements()`
returns `n`, and `finish()` returns exactly `ceil(n / (64 / BITS))` words (the empty
vector when `n = 0`): the partial accumulator is flushed exactly when non-empty. -/
theorem compactLongsWriter_counts (BITS : Nat) (hB1 : 1 ≤ BITS) (hB64 : BITS ≤ 64)
    (vals : List Nat) (hfit : ∀ v ∈ vals, v < 2 ^ BITS) :
    CompactLongsWriter.elements BITS (writerPushList BITS CompactLongsWriter.new vals)
        = vals.length
    ∧ (CompactLongsWriter.finish (writerPushList BITS CompactLongsWriter.new vals)).length
        = (vals.length + ELEMENTS_IN_LONG BITS - 1) / ELEMENTS_IN_LONG BITS := by
  have hepl : 1 ≤ ELEMENTS_IN_LONG BITS := by
    show 1 ≤ 64 / BITS
    exact (Nat.one_le_div_iff (by omega)).mpr hB64
  obtain ⟨helts, hinv⟩ := writer_push_list_invariant BITS hepl vals
    CompactLongsWriter.new (Or.inl ⟨rfl, rfl⟩)
  have hnew : CompactLongsWriter.elements BITS CompactLongsWriter.new = 0 := by
    simp [CompactLongsWriter.elements, CompactLongsWriter.new]
  rw [hnew] at helts
  refine ⟨by omega, ?_⟩
  rcases hinv with ⟨hvec, hidx⟩ | ⟨h1, h2⟩
  · have hlen0 : vals.length = 0 := by
      have : CompactLongsWriter.elements BITS (writerPushList BITS CompactLongsWriter.new vals)
          = 0 := by
        simp [CompactLongsWriter.elements, hvec, hidx]
      omega
    rw [CompactLongsWriter.finish, if_neg (by simp [hidx]), hvec, hlen0]
    simp
    exact (Nat.div_eq_of_lt (by omega)).symm
  · rw [CompactLongsWriter.finish, if_pos (by omega), List.length_append]
    have hN : vals.length
        = (writerPushList BITS CompactLongsWriter.new vals).current_index
          + (writerPushList BITS CompactLongsWriter.new vals).vec.length
            * ELEMENTS_IN_LONG BITS := by
      have h3 := helts
      simp [CompactLongsWriter.elements] at h3
      omega
    rw [hN, div_ceil_step _ _ _ hepl h1 h2]
    simp

/-- Claim C9 witness: the counts at BITS = 9 and the three in-range values 1, 2, 3. -/
theorem compactLongsWriter_counts_witness :
    (1 ≤ 9 ∧ 9 ≤ 64 ∧ ∀ v ∈ [1, 2, 3], v < 2 ^ 9)
    ∧ (CompactLongsWriter.elements 9 (writerPushList 9 CompactLongsWriter.new [1, 2, 3])
          = [1, 2, 3].length
      ∧ (CompactLongsWriter.finish (writerPushList 9 CompactLongsWriter.new [1, 2, 3])).length
          = ([1, 2, 3].length + ELEMENTS_IN_LONG 9 - 1) / ELEMENTS_IN_LONG 9) :=
  ⟨⟨by decide, by decide, by decide⟩,
   compactLongsWriter_counts 9 (by decide) (by decide) [1, 2, 3] (by decide)⟩

/-- The stopping index is at least one. -/
theorem stopIndex_pos (BITS COUNT : Nat) (hE : 1 ≤ 64 / BITS) :
    1 ≤ stopIndex BITS COUNT := by
  unfold stopIndex
  by_cases h : COUNT % (64 / BITS) = 0
  · rw [if_pos h]; omega
  · rw [if_neg h]; omega

/-- The stopping index never exceeds the elements in a word. -/
theorem stopIndex_le (BITS COUNT : Nat) (hE : 1 ≤ 64 / BITS) :
    stopIndex BITS COUNT ≤ 64 / BITS := by
  unfold stopIndex
  by_cases h : COUNT % (64 / BITS) = 0
  · rw [if_pos h]
  · rw [if_neg h]
    exact Nat.le_of_lt (Nat.mod_lt _ (by omega))

/-- A `next` call mid-word (lookahead present, word not exhausted) yields. -/
theorem next_yield_mid {S : Type} (step : S → Option (Nat × S)) (BITS COUNT : Nat)
    (it : S) (c w i : Nat) (hi : i ≠ 64 / BITS) :
    CompactLongsReader.next step BITS COUNT ⟨it, c, some w, i⟩
      = some (some (c &&& ((1 <<< BITS) - 1)), ⟨it, c >>> BITS, some w, i + 1⟩) := by
  simp [CompactLongsReader.next, readerYield, hi]

/-- A `next` call on the last word, before the stopping index, yields. -/
theorem next_yield_last {S : Type} (step : S → Option (Nat × S)) (BITS COUNT : Nat)
    (it : S) (c i : Nat) (h1 : i ≠ stopIndex BITS COUNT) (h2 : i ≠ 64 / BITS) :
    CompactLongsReader.next step BITS COUNT ⟨it, c, none, i⟩
      = some (some (c &&& ((1 <<< BITS) - 1)), ⟨it, c >>> BITS, none, i + 1⟩) := by
  simp [CompactLongsReader.next, readerYield, h1, h2]

/-- Once the lookahead is gone and the stopping index is reached, `next` returns the
iterator's `None` and leaves the state unchanged, so every later call does too. -/
theorem next_stop {S : Type} (step : S → Option (Nat × S)) (BITS COUNT : Nat)
    (it : S) (c : Nat) :
    CompactLongsReader.next step BITS COUNT ⟨it, c, none, stopIndex BITS COUNT⟩
      = some (none, ⟨it, c, none, stopIndex BITS COUNT⟩) := by
  simp [CompactLongsReader.next]

/-- Crossing a word boundary over a list source: the exhausted word is replaced by
the lookahead, a fresh lookahead is fetched, and the call still yields. -/
theorem next_cross (BITS COUNT : Nat) (it : List Nat) (c w : Nat) :
    CompactLongsReader.next listStep BITS COUNT ⟨it, c, some w, 64 / BITS⟩
      = some (some ((w >>> (64 % BITS)) &&& ((1 <<< BITS) - 1)),
          readerPendingState it ((w >>> (64 % BITS)) >>> BITS) 1) := by
  cases it <;> simp [CompactLongsReader.next, readerYield, listStep, readerPendingState]

/-- Yield runs compose. -/
theorem takeYields_append {S : Type} (step : S → Option (Nat × S)) (BITS COUNT : Nat) :
    ∀ (a : Nat) (s s1 : CompactLongsReader S) (vs : List Nat) (b : Nat)
      (ws : List Nat) (s2 : CompactLongsReader S),
      readerTakeYields step BITS COUNT a s = some (vs, s1) →
      readerTakeYields step BITS COUNT b s1 = some (ws, s2) →
      readerTakeYields step BITS COUNT (a + b) s = some (vs ++ ws, s2) := by
  intro a
  induction a with
  | zero =>
    intro s s1 vs b ws s2 h1 h2
    simp [readerTakeYields] at h1
    obtain ⟨rfl, rfl⟩ := h1
    simpa using h2
  | succ n ih =>
    intro s s1 vs b ws s2 h1 h2
    cases hn : CompactLongsReader.next step BITS COUNT s with
    | none => simp [readerTakeYields, hn] at h1
    | some p =>
      obtain ⟨ov, sx⟩ := p
      cases ov with
      | none => simp [readerTakeYields, hn] at h1
      | some v =>
        cases hrec : readerTakeYields step BITS COUNT n sx with
        | none => simp [readerTakeYields, hn, hrec] at h1
        | some q =>
          obtain ⟨vsx, s1x⟩ := q
          simp [readerTakeYields, hn, hrec] at h1
          obtain ⟨rfl, rfl⟩ := h1
          have hih := ih sx s1x vsx b ws s2 hrec h2
          have hsum : n + 1 + b = (n + b) + 1 := by omega
          rw [hsum]
          simp [readerTakeYields, hn, hih]

/-- Draining part of the current word while the lookahead is present: every call
yields and only the index and the shift register move. -/
theorem takeYields_run_mid {S : Type} (step : S → Option (Nat × S)) (BITS COUNT : Nat) :
    ∀ (k i : Nat), i + k ≤ 64 / BITS → ∀ (it : S) (c w : Nat),
      ∃ vs c2, readerTakeYields step BITS COUNT k ⟨it, c, some w, i⟩
          = some (vs, ⟨it, c2, some w, i + k⟩) ∧ vs.length = k := by
  intro k
  induction k with
  | zero =>
    intro i hik it c w
    exact ⟨[], c, by simp [readerTakeYields], rfl⟩
  | succ n ih =>
    intro i hik it c w
    have hi : i ≠ 64 / BITS := by omega
    obtain ⟨vs, c2, hrec, hlen⟩ := ih (i + 1) (by omega) it (c >>> BITS) w
    have heq : i + 1 + n = i + (n + 1) := by omega
    rw [heq] at hrec
    refine ⟨(c &&& ((1 <<< BITS) - 1)) :: vs, c2, ?_, by simp [hlen]⟩
    simp [readerTakeYields, next_yield_mid step BITS COUNT it c w i hi, hrec]

/-- Draining the tail of the last word up to the stopping index: every call yields. -/
theorem takeYields_run_last {S : Type} (step : S → Option (Nat × S)) (BITS COUNT : Nat)
    (hstople : stopIndex BITS COUNT ≤ 64 / BITS) :
    ∀ (k i : Nat), i + k ≤ stopIndex BITS COUNT → ∀ (it : S) (c : Nat),
      ∃ vs c2, readerTakeYields step BITS COUNT k ⟨it, c, none, i⟩
          = some (vs, ⟨it, c2, none, i + k⟩) ∧ vs.length = k := by
  intro k
  induction k with
  | zero =>
    intro i hik it c
    exact ⟨[], c, by simp [readerTakeYields], rfl⟩
  | succ n ih =>
    intro i hik it c
    have h1 : i ≠ stopIndex BITS COUNT := by omega
    have h2 : i ≠ 64 / BITS := by omega
    obtain ⟨vs, c2, hrec, hlen⟩ := ih (i + 1) (by omega) it (c >>> BITS)
    have heq : i + 1 + n = i + (n + 1) := by omega
    rw [heq] at hrec
    refine ⟨(c &&& ((1 <<< BITS) - 1)) :: vs, c2, ?_, by simp [hlen]⟩
    simp [readerTakeYields, next_yield_last step BITS COUNT it c i h1 h2, hrec]

/-- Draining every pending word: from index `i` of the current word with the words of
`q` still unread, exactly `readerPendingCount` calls all yield, ending at the
stopping index of the last word with no lookahead. -/
theorem takeYields_drain (BITS COUNT : Nat) (hE : 1 ≤ 64 / BITS)
    (hstop1 : 1 ≤ stopIndex BITS COUNT) (hstople : stopIndex BITS COUNT ≤ 64 / BITS) :
    ∀ (q : List Nat) (c i : Nat), i ≤ 64 / BITS → (q = [] → i ≤ stopIndex BITS COUNT) →
      ∃ vs c2, readerTakeYields listStep BITS COUNT (readerPendingCount BITS COUNT q i)
          (readerPendingState q c i)
        = some (vs, ⟨[], c2, none, stopIndex BITS COUNT⟩)
        ∧ vs.length = readerPendingCount BITS COUNT q i := by
  intro q
  induction q with
  | nil =>
    intro c i hiE histop
    have histop2 : i ≤ stopIndex BITS COUNT := histop rfl
    obtain ⟨vs, c2, h, hlen⟩ := takeYields_run_last listStep BITS COUNT hstople
      (stopIndex BITS COUNT - i) i (by omega) ([] : List Nat) c
    have heq : i + (stopIndex BITS COUNT - i) = stopIndex BITS COUNT := by omega
    rw [heq] at h
    exact ⟨vs, c2, h, hlen⟩
  | cons w q2 ih =>
    intro c i hiE histop
    obtain ⟨vs1, c1, h1, hlen1⟩ := takeYields_run_mid listStep BITS COUNT
      (64 / BITS - i) i (by omega) q2 c w
    have heq1 : i + (64 / BITS - i) = 64 / BITS := by omega
    rw [heq1] at h1
    have h2' : readerTakeYields listStep BITS COUNT 1 ⟨q2, c1, some w, 64 / BITS⟩
        = some ([(w >>> (64 % BITS)) &&& ((1 <<< BITS) - 1)],
            readerPendingState q2 ((w >>> (64 % BITS)) >>> BITS) 1) := by
      simp [readerTakeYields, next_cross BITS COUNT q2 c1 w]
    obtain ⟨vs3, c3, h3, hlen3⟩ := ih ((w >>> (64 % BITS)) >>> BITS) 1 (by omega)
      (fun _ => hstop1)
    have hcomp1 := takeYields_append listStep BITS COUNT 1 _ _ _
      (readerPendingCount BITS COUNT q2 1) _ _ h2' h3
    have hcomp2 := takeYields_append listStep BITS COUNT (64 / BITS - i) _ _ _
      (1 + readerPendingCount BITS COUNT q2 1) _ _ h1 hcomp1
    have harith : (64 / BITS - i) + (1 + readerPendingCount BITS COUNT q2 1)
        = readerPendingCount BITS COUNT (w :: q2) i := by
      cases q2 with
      | nil =>
        simp [readerPendingCount]
        omega
      | cons w2 q3 =>
        simp [readerPendingCount, Nat.mul_succ]
        omega
    rw [harith] at hcomp2
    refine ⟨vs1 ++ ([(w >>> (64 % BITS)) &&& ((1 <<< BITS) - 1)] ++ vs3), c3, hcomp2, ?_⟩
    rw [← harith]
    simp [hlen1, hlen3]
    omega

/-- A count of at least one splits as full words times `64 / BITS` plus the stopping
index, when the word count is the rounded-up quotient. -/
theorem count_decomp (BITS COUNT : Nat) (hE : 1 ≤ 64 / BITS) (hC : 1 ≤ COUNT) :
    COUNT = (64 / BITS) * ((COUNT + 64 / BITS - 1) / (64 / BITS) - 1)
      + stopIndex BITS COUNT := by
  have hdm := Nat.div_add_mod COUNT (64 / BITS)
  have hlt : COUNT % (64 / BITS) < 64 / BITS := Nat.mod_lt _ (by omega)
  unfold stopIndex
  by_cases hr : COUNT % (64 / BITS) = 0
  · rw [if_pos hr]
    have hq1 : 1 ≤ COUNT / (64 / BITS) := by
      rcases Nat.eq_zero_or_pos (COUNT / (64 / BITS)) with h | h
      · rw [h] at hdm
        omega
      · exact h
    have hceil : (COUNT + 64 / BITS - 1) / (64 / BITS) = COUNT / (64 / BITS) := by
      have h1 : COUNT + 64 / BITS - 1
          = (64 / BITS) * (COUNT / (64 / BITS)) + (64 / BITS - 1) := by omega
      have h2 : ((64 / BITS) * (COUNT / (64 / BITS)) + (64 / BITS - 1)) / (64 / BITS)
          = COUNT / (64 / BITS) + (64 / BITS - 1) / (64 / BITS) :=
        Nat.mul_add_div (by omega) _ _
      have h3 : (64 / BITS - 1) / (64 / BITS) = 0 := Nat.div_eq_of_lt (by omega)
      rw [h1, h2, h3]
      omega
    rw [hceil]
    obtain ⟨k, hk⟩ : ∃ k, COUNT / (64 / BITS) = k + 1 :=
      ⟨COUNT / (64 / BITS) - 1, by omega⟩
    rw [hk] at hdm
    rw [hk]
    have hms : (64 / BITS) * (k + 1) = (64 / BITS) * k + 64 / BITS := Nat.mul_succ _ _
    simp
    omega
  · rw [if_neg hr]
    have hms : (64 / BITS) * (COUNT / (64 / BITS) + 1)
        = (64 / BITS) * (COUNT / (64 / BITS)) + 64 / BITS := Nat.mul_succ _ _
    have hceil : (COUNT + 64 / BITS - 1) / (64 / BITS) = COUNT / (64 / BITS) + 1 := by
      have h1 : COUNT + 64 / BITS - 1
          = (64 / BITS) * (COUNT / (64 / BITS) + 1) + (COUNT % (64 / BITS) - 1) := by omega
      have h2 : ((64 / BITS) * (COUNT / (64 / BITS) + 1) + (COUNT % (64 / BITS) - 1))
            / (64 / BITS)
          = COUNT / (64 / BITS) + 1 + (COUNT % (64 / BITS) - 1) / (64 / BITS) :=
        Nat.mul_add_div (by omega) _ _
      have h3 : (COUNT % (64 / BITS) - 1) / (64 / BITS) = 0 := Nat.div_eq_of_lt (by omega)
      rw [h1, h2, h3]
    rw [hceil]
    simp
    omega

/-- Claim C6 (amended): over a list source holding exactly
`ceil(COUNT / (64 / BITS))` words (1 ≤ BITS ≤ 64, COUNT ≥ 1), `new` succeeds and the
reader yields exactly `COUNT` elements and then `None`: the `COUNT` first calls of
`next` all yield, and the following call returns `None` with the state unchanged
(so every later call returns `None` as well) — the final word's leftover slots never
become elements even though its bits are unconsumed. -/
theorem compactLongsReader_exact_count (BITS COUNT : Nat) (src : List Nat)
    (hB1 : 1 ≤ BITS) (hB64 : BITS ≤ 64) (hC : 1 ≤ COUNT)
    (hsrc : src.length = (COUNT + 64 / BITS - 1) / (64 / BITS)) :
    ∃ s0 vs sEnd,
      CompactLongsReader.new listStep BITS src = some s0
      ∧ readerTakeYields listStep BITS COUNT COUNT s0 = some (vs, sEnd)
      ∧ vs.length = COUNT
      ∧ CompactLongsReader.next listStep BITS COUNT sEnd = some (none, sEnd) := by
  have hE : 1 ≤ 64 / BITS := (Nat.one_le_div_iff (by omega)).mpr hB64
  have hstop1 : 1 ≤ stopIndex BITS COUNT := stopIndex_pos BITS COUNT hE
  have hstople : stopIndex BITS COUNT ≤ 64 / BITS := stopIndex_le BITS COUNT hE
  have hdecomp := count_decomp BITS COUNT hE hC
  obtain ⟨w, rest, rfl⟩ : ∃ w rest, src = w :: rest := by
    cases src with
    | nil =>
      exfalso
      have hone : 1 ≤ (COUNT + 64 / BITS - 1) / (64 / BITS) :=
        (Nat.one_le_div_iff (by omega)).mpr (by omega)
      simp at hsrc
      omega
    | cons w rest => exact ⟨w, rest, rfl⟩
  have hnew : CompactLongsReader.new listStep BITS (w :: rest)
      = some (readerPendingState rest (w >>> (64 % BITS)) 0) := by
    cases rest <;> simp [CompactLongsReader.new, listStep, readerPendingState]
  have hlenrest : rest.length = (COUNT + 64 / BITS - 1) / (64 / BITS) - 1 := by
    simp at hsrc
    omega
  have hcount : COUNT = readerPendingCount BITS COUNT rest 0 := by
    cases rest with
    | nil =>
      simp [readerPendingCount]
      simp at hlenrest
      rw [← hlenrest] at hdecomp
      simpa using hdecomp
    | cons w2 r2 =>
      simp [readerPendingCount]
      simp at hlenrest
      rw [← hlenrest] at hdecomp
      have hms : (64 / BITS) * (r2.length + 1) = (64 / BITS) * r2.length + 64 / BITS :=
        Nat.mul_succ _ _
      omega
  obtain ⟨vs, c2, hdrain, hlenvs⟩ := takeYields_drain BITS COUNT hE hstop1 hstople rest
    (w >>> (64 % BITS)) 0 (by omega) (fun _ => by omega)
  rw [← hcount] at hdrain hlenvs
  exact ⟨readerPendingState rest (w >>> (64 % BITS)) 0, vs,
    ⟨[], c2, none, stopIndex BITS COUNT⟩, hnew, hdrain, hlenvs,
    next_stop listStep BITS COUNT [] c2⟩

/-- Claim C6 (amended) witness: BITS = 9, COUNT = 10 over a two-word source
(the rounded-up quotient of 10 by 7 is 2). -/
theorem compactLongsReader_exact_count_witness :
    (1 ≤ 9 ∧ 9 ≤ 64 ∧ 1 ≤ 10 ∧ ([0, 0] : List Nat).length = (10 + 64 / 9 - 1) / (64 / 9))
    ∧ (∃ s0 vs sEnd,
        CompactLongsReader.new listStep 9 [0, 0] = some s0
        ∧ readerTakeYields listStep 9 10 10 s0 = some (vs, sEnd)
        ∧ vs.length = 10
        ∧ CompactLongsReader.next listStep 9 10 sEnd = some (none, sEnd)) :=
  ⟨⟨by decide, by decide, by decide, by decide⟩,
   compactLongsReader_exact_count 9 10 [0, 0] (by decide) (by decide) (by decide) (by decide)⟩

/-- A buffer of at least eight bytes always yields a u64. -/
theorem u64Read_isSome (l : List Nat) (h : 8 ≤ l.length) : (u64Read l).isSome := by
  match l, h with
  | b0 :: b1 :: b2 :: b3 :: b4 :: b5 :: b6 :: b7 :: rest, _ => rfl

/-- `CompactLongsReader::new` succeeds whenever the source yields a first word. -/
theorem reader_new_isSome {S : Type} (step : S → Option (Nat × S)) (BITS : Nat) (src : S)
    (h : (step src).isSome) : (CompactLongsReader.new step BITS src).isSome := by
  unfold CompactLongsReader.new
  cases hs : step src with
  | none => rw [hs] at h; simp at h
  | some p =>
    obtain ⟨w, s1⟩ := p
    cases h2 : step s1 <;> simp [h2]

/-- Claim C10: with the documented length preconditions (37 * 8 raw bytes, or 37
longs), the inner word iterator of `ChunkDataHeightMap` yields a first word, so
`CompactLongsReader::new` returns `Some` and the `unwrap_unchecked` inside
`into_iter` (`CompactLongsReader` at BITS = 9) is never reached. -/
theorem chunkDataHeightMap_into_iter_safe (bytes words : List Nat)
    (hb : bytes.length = 37 * 8) (hw : words.length = 37) :
    (chunkDataHeightMapInnerStep (.raw bytes)).isSome
    ∧ (chunkDataHeightMapInnerStep (.longs words)).isSome
    ∧ (CompactLongsReader.new chunkDataHeightMapInnerStep 9 (.raw bytes)).isSome
    ∧ (CompactLongsReader.new chunkDataHeightMapInnerStep 9 (.longs words)).isSome := by
  have h1 : (chunkDataHeightMapInnerStep (.raw bytes)).isSome := by
    have h8 := u64Read_isSome bytes (by omega)
    cases hu : u64Read bytes with
    | none => rw [hu] at h8; simp at h8
    | some p => simp [chunkDataHeightMapInnerStep, hu]
  have h2 : (chunkDataHeightMapInnerStep (.longs words)).isSome := by
    cases words with
    | nil => simp at hw
    | cons w ws => simp [chunkDataHeightMapInnerStep]
  exact ⟨h1, h2, reader_new_isSome _ _ _ h1, reader_new_isSome _ _ _ h2⟩

/-- Claim C10 witness: the safety at concrete 296-byte and 37-long sources. -/
theorem chunkDataHeightMap_into_iter_safe_witness :
    ((List.replicate 296 0).length = 37 * 8 ∧ (List.replicate 37 0).length = 37)
    ∧ ((chunkDataHeightMapInnerStep (.raw (List.replicate 296 0))).isSome
      ∧ (chunkDataHeightMapInnerStep (.longs (List.replicate 37 0))).isSome
      ∧ (CompactLongsReader.new chunkDataHeightMapInnerStep 9
          (.raw (List.replicate 296 0))).isSome
      ∧ (CompactLongsReader.new chunkDataHeightMapInnerStep 9
          (.longs (List.replicate 37 0))).isSome) :=
  ⟨⟨by rw [List.length_replicate], by rw [List.length_replicate]⟩,
   chunkDataHeightMap_into_iter_safe (List.replicate 296 0) (List.replicate 37 0)
     (by rw [List.length_replicate]) (by rw [List.length_replicate])⟩
